import Mathlib

/-!
Verification of the clickmap human-ceiling pipeline
(`compute_human_ceiling.py`, `compute_human_ceiling_hold_one_out.py`,
`clickme_prepare_maps_for_modeling.py`).

The Python code is shallowly embedded: float arrays become functions
`Fin H → Fin W` into `ℝ` or `ℚ`, NumPy NaN propagation is modelled with
`Option` (with `none` playing the role of NaN, as produced by degenerate
normalizations and by `numpy` means of empty slices), and Python exceptions
are modelled with `Except` / explicit error constructors.
-/

/- ## Embedding of `gaussian_kernel` (compute_human_ceiling.py, lines 16-36)

   x_range = torch.arange(-(size-1)//2, (size-1)//2 + 1, 1)
   y_range = torch.arange((size-1)//2, -(size-1)//2 - 1, -1)
   xs, ys = torch.meshgrid(x_range, y_range, indexing='ij')
   kernel = torch.exp(-(xs**2 + ys**2) / (2 * sigma**2)) / (2 * np.pi * sigma**2)
   kernel = kernel / kernel.sum()

   Python `//` is floor division, i.e. `Int.fdiv`. -/

/-- Lower endpoint of the arange in `gaussian_kernel`: Python `-(size-1)//2`,
which parses as `(-(size-1))//2` with floor division. -/
def kLo (size : ℕ) : ℤ := Int.fdiv (1 - (size : ℤ)) 2

/-- Upper endpoint of the arange in `gaussian_kernel`: Python `(size-1)//2`. -/
def kHi (size : ℕ) : ℤ := Int.fdiv ((size : ℤ) - 1) 2

/-- Entry `i` of `x_range` (ascending from `kLo`). -/
def xCoord (size : ℕ) (i : Fin size) : ℤ := kLo size + (i : ℕ)

/-- Entry `j` of `y_range` (descending from `kHi`). -/
def yCoord (size : ℕ) (j : Fin size) : ℤ := kHi size - (j : ℕ)

/-- Unnormalized Gaussian kernel entry at grid position `(i, j)`
(`indexing='ij'`: `xs[i][j] = x_range[i]`, `ys[i][j] = y_range[j]`). -/
noncomputable def gaussianKernelRaw (size : ℕ) (σ : ℝ) (i j : Fin size) : ℝ :=
  Real.exp (-(((xCoord size i : ℤ) : ℝ) ^ 2 + ((yCoord size j : ℤ) : ℝ) ^ 2) / (2 * σ ^ 2)) /
    (2 * Real.pi * σ ^ 2)

/-- The value `kernel.sum()` used for normalization. -/
noncomputable def kernelNorm (size : ℕ) (σ : ℝ) : ℝ :=
  ∑ i : Fin size, ∑ j : Fin size, gaussianKernelRaw size σ i j

/-- The normalized Gaussian kernel returned by `gaussian_kernel`
(the added batch/channel dimensions are dropped in this embedding). -/
noncomputable def gaussianKernel (size : ℕ) (σ : ℝ) (i j : Fin size) : ℝ :=
  gaussianKernelRaw size σ i j / kernelNorm size σ

lemma gaussianKernelRaw_pos (size : ℕ) (σ : ℝ) (hσ : 0 < σ) (i j : Fin size) :
    0 < gaussianKernelRaw size σ i j := by
  unfold gaussianKernelRaw
  apply div_pos (Real.exp_pos _)
  have hπ := Real.pi_pos
  positivity

lemma kernelNorm_pos (size : ℕ) (σ : ℝ) (hsize : 1 ≤ size) (hσ : 0 < σ) :
    0 < kernelNorm size σ := by
  have : Nonempty (Fin size) := Fin.pos_iff_nonempty.mp (by omega)
  unfold kernelNorm
  exact Finset.sum_pos
    (fun i _ => Finset.sum_pos (fun j _ => gaussianKernelRaw_pos size σ hσ i j)
      Finset.univ_nonempty) Finset.univ_nonempty

/-- The normalized kernel sums to 1 for every positive size and positive sigma. -/
lemma gaussianKernel_sum_one (size : ℕ) (σ : ℝ) (hsize : 1 ≤ size) (hσ : 0 < σ) :
    ∑ i : Fin size, ∑ j : Fin size, gaussianKernel size σ i j = 1 := by
  have hS := kernelNorm_pos size σ hsize hσ
  unfold gaussianKernel
  simp only [← Finset.sum_div]
  exact div_self hS.ne'

lemma kLo_odd (h : ℕ) : kLo (2 * h + 1) = -(h : ℤ) := by
  unfold kLo
  rw [Int.fdiv_eq_ediv _ (by norm_num)]
  push_cast
  omega

lemma kHi_odd (h : ℕ) : kHi (2 * h + 1) = (h : ℤ) := by
  unfold kHi
  rw [Int.fdiv_eq_ediv _ (by norm_num)]
  push_cast
  omega

lemma xCoord_eq_neg_yCoord (h : ℕ) (k : Fin (2 * h + 1)) :
    xCoord (2 * h + 1) k = -(yCoord (2 * h + 1) k) := by
  unfold xCoord yCoord
  rw [kLo_odd, kHi_odd]
  ring

lemma xCoord_rev_odd (h : ℕ) (i : Fin (2 * h + 1)) :
    xCoord (2 * h + 1) i.rev = -(xCoord (2 * h + 1) i) := by
  unfold xCoord
  rw [kLo_odd]
  have hi := i.isLt
  simp only [Fin.val_rev]
  omega

lemma yCoord_rev_odd (h : ℕ) (j : Fin (2 * h + 1)) :
    yCoord (2 * h + 1) j.rev = -(yCoord (2 * h + 1) j) := by
  unfold yCoord
  rw [kHi_odd]
  have hj := j.isLt
  simp only [Fin.val_rev]
  omega

lemma gaussianKernelRaw_symm_odd (h : ℕ) (σ : ℝ) (i j : Fin (2 * h + 1)) :
    gaussianKernelRaw (2 * h + 1) σ i j = gaussianKernelRaw (2 * h + 1) σ j i := by
  unfold gaussianKernelRaw
  rw [xCoord_eq_neg_yCoord h i, xCoord_eq_neg_yCoord h j]
  push_cast
  ring_nf

lemma gaussianKernelRaw_rev_odd (h : ℕ) (σ : ℝ) (i j : Fin (2 * h + 1)) :
    gaussianKernelRaw (2 * h + 1) σ i j = gaussianKernelRaw (2 * h + 1) σ i.rev j.rev := by
  unfold gaussianKernelRaw
  rw [xCoord_rev_odd, yCoord_rev_odd]
  push_cast
  ring_nf

/-- At size 2, entry (0,1) of the unnormalized kernel is strictly below
entry (1,0): the former has squared coordinates 1+1, the latter 0+0. -/
lemma gaussianKernelRaw_2_ne :
    gaussianKernelRaw 2 1 0 1 < gaussianKernelRaw 2 1 1 0 := by
  have hx0 : xCoord 2 0 = -1 := by decide
  have hx1 : xCoord 2 1 = 0 := by decide
  have hy0 : yCoord 2 0 = 0 := by decide
  have hy1 : yCoord 2 1 = -1 := by decide
  unfold gaussianKernelRaw
  rw [hx0, hx1, hy0, hy1]
  have hπ := Real.pi_pos
  have harg : ((-(((-1 : ℤ) : ℝ) ^ 2 + ((-1 : ℤ) : ℝ) ^ 2) / (2 * (1 : ℝ) ^ 2)) : ℝ) = -1 := by
    push_cast; norm_num
  have harg2 : ((-((((0 : ℤ) : ℝ)) ^ 2 + (((0 : ℤ) : ℝ)) ^ 2) / (2 * (1 : ℝ) ^ 2)) : ℝ) = 0 := by
    push_cast; norm_num
  rw [harg, harg2]
  exact (div_lt_div_iff_of_pos_right (by positivity)).mpr
    (Real.exp_lt_exp.mpr (by norm_num))

/-- C1 (counterexample): `gaussian_kernel` is not symmetric for every size:
at size 2 (sigma 1) the kernel differs from its transpose; and at size 0 the
kernel is an empty array whose entries sum to 0, not 1. -/
theorem C1_gaussian_kernel_counterexample :
    gaussianKernel 2 1 0 1 ≠ gaussianKernel 2 1 1 0 ∧
    (∑ i : Fin 0, ∑ j : Fin 0, gaussianKernel 0 1 i j) = 0 := by
  constructor
  · have hS := kernelNorm_pos 2 1 (by norm_num) (by norm_num)
    have hne := ne_of_lt gaussianKernelRaw_2_ne
    unfold gaussianKernel
    intro hcontra
    apply hne
    field_simp [hS.ne'] at hcontra
    exact hcontra
  · simp

/-- C1 (amended): for every positive kernel size and every positive sigma,
the entries of `gaussian_kernel(size, sigma)` sum to 1; the kernel is a
deterministic (pure) function of `(size, sigma)`; and for every odd size it
is moreover symmetric under transposition and under 180-degree rotation. -/
theorem C1_gaussian_kernel_amended (size : ℕ) (σ : ℝ) (hsize : 1 ≤ size) (hσ : 0 < σ) :
    (∑ i : Fin size, ∑ j : Fin size, gaussianKernel size σ i j = 1) ∧
    (Odd size →
      (∀ i j : Fin size, gaussianKernel size σ i j = gaussianKernel size σ j i) ∧
      (∀ i j : Fin size, gaussianKernel size σ i j = gaussianKernel size σ i.rev j.rev)) := by
  refine ⟨gaussianKernel_sum_one size σ hsize hσ, ?_⟩
  rintro ⟨h, rfl⟩
  constructor
  · intro i j
    unfold gaussianKernel
    rw [gaussianKernelRaw_symm_odd]
  · intro i j
    unfold gaussianKernel
    rw [gaussianKernelRaw_rev_odd]

/-- C1 witness: the amended theorem applied at size 3, sigma 1. -/
theorem C1_gaussian_kernel_witness :
    (1 ≤ 3 ∧ (0 : ℝ) < 1) ∧ ∑ i : Fin 3, ∑ j : Fin 3, gaussianKernel 3 1 i j = 1 :=
  ⟨⟨by norm_num, by norm_num⟩, (C1_gaussian_kernel_amended 3 1 (by norm_num) (by norm_num)).1⟩

/- ## Embedding of `gaussian_blur` (compute_human_ceiling.py, lines 38-52)

   `F.conv2d(heatmap, kernel, padding='same')` computes a stride-1
   cross-correlation over a zero-padded input, with left/top padding
   `(k-1)//2`, so that the output keeps the input shape. -/

/-- Left/top padding used by same-padding convolution with a `k`-wide kernel. -/
def padSame (k : ℕ) : ℕ := (k - 1) / 2

/-- Total mass (sum of all entries) of a 2D grid. -/
noncomputable def totalMass {H W : ℕ} (g : Fin H → Fin W → ℝ) : ℝ :=
  ∑ r : Fin H, ∑ c : Fin W, g r c

/-- Zero-padded pixel access at integer coordinates. -/
noncomputable def getPix {H W : ℕ} (g : Fin H → Fin W → ℝ) (a b : ℤ) : ℝ :=
  if h : 0 ≤ a ∧ a < (H : ℤ) ∧ 0 ≤ b ∧ b < (W : ℤ) then
    g ⟨a.toNat, by omega⟩ ⟨b.toNat, by omega⟩
  else 0

/-- One output entry of `F.conv2d(..., padding='same')`. -/
noncomputable def conv2dSame {H W k : ℕ} (g : Fin H → Fin W → ℝ)
    (ker : Fin k → Fin k → ℝ) (r : Fin H) (c : Fin W) : ℝ :=
  ∑ i : Fin k, ∑ j : Fin k,
    ker i j * getPix g (((r : ℕ) : ℤ) + ((i : ℕ) : ℤ) - ((padSame k : ℕ) : ℤ))
                       (((c : ℕ) : ℤ) + ((j : ℕ) : ℤ) - ((padSame k : ℕ) : ℤ))

lemma getPix_coe {H W : ℕ} (g : Fin H → Fin W → ℝ) (r : Fin H) (c : Fin W) :
    getPix g ((r : ℕ) : ℤ) ((c : ℕ) : ℤ) = g r c := by
  have hr := r.isLt
  have hc := c.isLt
  unfold getPix
  rw [dif_pos ⟨by omega, by omega, by omega, by omega⟩]
  simp only [Int.toNat_natCast]

lemma getPix_ne_zero {H W : ℕ} (g : Fin H → Fin W → ℝ) (a b : ℤ)
    (h : getPix g a b ≠ 0) :
    ∃ (r : Fin H) (c : Fin W), ((r : ℕ) : ℤ) = a ∧ ((c : ℕ) : ℤ) = b ∧ g r c ≠ 0 := by
  unfold getPix at h
  split at h
  case isTrue hcond =>
    refine ⟨⟨a.toNat, by omega⟩, ⟨b.toNat, by omega⟩, ?_, ?_, h⟩
    · simp [Int.toNat_of_nonneg hcond.1]
    · simp [Int.toNat_of_nonneg hcond.2.2.1]
  case isFalse => exact absurd rfl h

/-- Summing a shifted zero-padded lookup over the whole output grid returns the
full mass of the input, provided the shift is at most `k/2` in each direction
and all non-zero input entries are at least `k/2` pixels away from each border. -/
lemma sum_getPix_shift {H W : ℕ} (g : Fin H → Fin W → ℝ) (k : ℕ) (di dj : ℤ)
    (hdi : -((k / 2 : ℕ) : ℤ) ≤ di ∧ di ≤ ((k / 2 : ℕ) : ℤ))
    (hdj : -((k / 2 : ℕ) : ℤ) ≤ dj ∧ dj ≤ ((k / 2 : ℕ) : ℤ))
    (hsupp : ∀ r c, g r c ≠ 0 →
      k / 2 ≤ (r : ℕ) ∧ (r : ℕ) + k / 2 < H ∧ k / 2 ≤ (c : ℕ) ∧ (c : ℕ) + k / 2 < W) :
    ∑ r : Fin H, ∑ c : Fin W, getPix g (((r : ℕ) : ℤ) + di) (((c : ℕ) : ℤ) + dj)
      = totalMass g := by
  unfold totalMass
  have key : ∑ x ∈ (Finset.univ : Finset (Fin H × Fin W)), g x.1 x.2
      = ∑ x ∈ (Finset.univ : Finset (Fin H × Fin W)),
          getPix g (((x.1 : ℕ) : ℤ) + di) (((x.2 : ℕ) : ℤ) + dj) := by
    refine Finset.sum_bij_ne_zero
      (i := fun a _ hne =>
        (⟨(((a.1 : ℕ) : ℤ) - di).toNat, by
            obtain ⟨h1, h2, h3, h4⟩ := hsupp a.1 a.2 hne
            omega⟩,
         ⟨(((a.2 : ℕ) : ℤ) - dj).toNat, by
            obtain ⟨h1, h2, h3, h4⟩ := hsupp a.1 a.2 hne
            omega⟩))
      (fun a h₁ h₂ => Finset.mem_univ _) ?_ ?_ ?_
    · intro a₁ h₁₁ h₁₂ a₂ h₂₁ h₂₂ heq
      obtain ⟨s1, s2, s3, s4⟩ := hsupp a₁.1 a₁.2 h₁₂
      obtain ⟨t1, t2, t3, t4⟩ := hsupp a₂.1 a₂.2 h₂₂
      have e1 := congrArg (fun p => ((p.1 : ℕ) : ℤ)) heq
      have e2 := congrArg (fun p => ((p.2 : ℕ) : ℤ)) heq
      simp only at e1 e2
      have v1 : (a₁.1 : ℕ) = (a₂.1 : ℕ) := by omega
      have v2 : (a₁.2 : ℕ) = (a₂.2 : ℕ) := by omega
      exact Prod.ext (Fin.ext v1) (Fin.ext v2)
    · intro b _ hbne
      obtain ⟨b1, b2⟩ := b
      obtain ⟨r, c, hr, hc, hgne⟩ := getPix_ne_zero g _ _ hbne
      obtain ⟨s1, s2, s3, s4⟩ := hsupp r c hgne
      refine ⟨(r, c), Finset.mem_univ _, hgne, ?_⟩
      have hb1 := b1.isLt
      have hb2 := b2.isLt
      have hr' : ((r : ℕ) : ℤ) = ((b1 : ℕ) : ℤ) + di := hr
      have hc' : ((c : ℕ) : ℤ) = ((b2 : ℕ) : ℤ) + dj := hc
      refine Prod.ext (Fin.ext ?_) (Fin.ext ?_)
      · show ((((r : ℕ) : ℤ) - di).toNat : ℕ) = (b1 : ℕ)
        omega
      · show ((((c : ℕ) : ℤ) - dj).toNat : ℕ) = (b2 : ℕ)
        omega
    · intro a h₁ h₂
      obtain ⟨s1, s2, s3, s4⟩ := hsupp a.1 a.2 h₂
      have harg1 : (((((a.1 : ℕ) : ℤ) - di).toNat : ℕ) : ℤ) + di = ((a.1 : ℕ) : ℤ) := by omega
      have harg2 : (((((a.2 : ℕ) : ℤ) - dj).toNat : ℕ) : ℤ) + dj = ((a.2 : ℕ) : ℤ) := by omega
      simp only [harg1, harg2]
      exact (getPix_coe g a.1 a.2).symm
  calc ∑ r : Fin H, ∑ c : Fin W, getPix g (((r : ℕ) : ℤ) + di) (((c : ℕ) : ℤ) + dj)
      = ∑ x ∈ ((Finset.univ : Finset (Fin H)) ×ˢ (Finset.univ : Finset (Fin W))),
          getPix g (((x.1 : ℕ) : ℤ) + di) (((x.2 : ℕ) : ℤ) + dj) :=
        (Finset.sum_product' _ _ _).symm
    _ = ∑ x ∈ (Finset.univ : Finset (Fin H × Fin W)),
          getPix g (((x.1 : ℕ) : ℤ) + di) (((x.2 : ℕ) : ℤ) + dj) := by
        rw [Finset.univ_product_univ]
    _ = ∑ x ∈ (Finset.univ : Finset (Fin H × Fin W)), g x.1 x.2 := key.symm
    _ = ∑ x ∈ ((Finset.univ : Finset (Fin H)) ×ˢ (Finset.univ : Finset (Fin W))),
          g x.1 x.2 := by rw [Finset.univ_product_univ]
    _ = ∑ r : Fin H, ∑ c : Fin W, g r c := Finset.sum_product' _ _ _

/-- Mass preservation for same-padding convolution against any kernel that sums
to 1, for grids whose support keeps a `k/2` margin from every border. -/
lemma conv2dSame_totalMass {H W k : ℕ} (g : Fin H → Fin W → ℝ)
    (ker : Fin k → Fin k → ℝ) (hker : ∑ i : Fin k, ∑ j : Fin k, ker i j = 1)
    (hsupp : ∀ r c, g r c ≠ 0 →
      k / 2 ≤ (r : ℕ) ∧ (r : ℕ) + k / 2 < H ∧ k / 2 ≤ (c : ℕ) ∧ (c : ℕ) + k / 2 < W) :
    totalMass (conv2dSame g ker) = totalMass g := by
  have step1 : totalMass (conv2dSame g ker)
      = ∑ i : Fin k, ∑ j : Fin k, ker i j *
          (∑ r : Fin H, ∑ c : Fin W,
            getPix g (((r : ℕ) : ℤ) + (((i : ℕ) : ℤ) - ((padSame k : ℕ) : ℤ)))
                     (((c : ℕ) : ℤ) + (((j : ℕ) : ℤ) - ((padSame k : ℕ) : ℤ)))) := by
    unfold totalMass conv2dSame
    simp only [add_sub_assoc]
    rw [Finset.sum_congr rfl (fun r _ => Finset.sum_comm)]
    rw [Finset.sum_comm]
    refine Finset.sum_congr rfl (fun i _ => ?_)
    rw [Finset.sum_congr rfl (fun r _ => Finset.sum_comm)]
    rw [Finset.sum_comm]
    refine Finset.sum_congr rfl (fun j _ => ?_)
    simp only [← Finset.mul_sum]
  rw [step1]
  have step2 : ∀ i j : Fin k,
      (∑ r : Fin H, ∑ c : Fin W,
        getPix g (((r : ℕ) : ℤ) + (((i : ℕ) : ℤ) - ((padSame k : ℕ) : ℤ)))
                 (((c : ℕ) : ℤ) + (((j : ℕ) : ℤ) - ((padSame k : ℕ) : ℤ))))
        = totalMass g := by
    intro i j
    have hi := i.isLt
    have hj := j.isLt
    refine sum_getPix_shift g k _ _ ⟨?_, ?_⟩ ⟨?_, ?_⟩ hsupp
    · unfold padSame; omega
    · unfold padSame; omega
    · unfold padSame; omega
    · unfold padSame; omega
  simp only [step2]
  simp only [← Finset.sum_mul]
  rw [hker, one_mul]

/-- C2: for every density grid whose non-zero entries all lie at least
`size/2` pixels from every border, `gaussian_blur` with the normalized
Gaussian kernel preserves total mass exactly: the smoothed grid sums to the
same value as the input grid. -/
theorem C2_gaussian_blur_mass (H W size : ℕ) (σ : ℝ) (g : Fin H → Fin W → ℝ)
    (hsize : 1 ≤ size) (hσ : 0 < σ)
    (hsupp : ∀ r c, g r c ≠ 0 →
      size / 2 ≤ (r : ℕ) ∧ (r : ℕ) + size / 2 < H ∧
      size / 2 ≤ (c : ℕ) ∧ (c : ℕ) + size / 2 < W) :
    totalMass (conv2dSame g (gaussianKernel size σ)) = totalMass g :=
  conv2dSame_totalMass g (gaussianKernel size σ)
    (gaussianKernel_sum_one size σ hsize hσ) hsupp

/-- C2 witness: the theorem applied to a concrete 3x3 grid with a size-1
kernel (margin 0, so the support condition is trivially satisfied). -/
theorem C2_gaussian_blur_mass_witness :
    (1 ≤ 1 ∧ (0 : ℝ) < 1) ∧
    totalMass (conv2dSame (fun (_ : Fin 3) (_ : Fin 3) => (5 : ℝ)) (gaussianKernel 1 1))
      = totalMass (fun (_ : Fin 3) (_ : Fin 3) => (5 : ℝ)) :=
  ⟨⟨le_refl 1, by norm_num⟩,
    C2_gaussian_blur_mass 3 3 1 1 _ (le_refl 1) (by norm_num)
      (fun r c _ => ⟨by omega, by omega, by omega, by omega⟩)⟩

/- ## Embedding of the null-score comparison-image selection
   (compute_human_ceiling.py `main`, lines 259-267, and
   compute_human_ceiling_hold_one_out.py `compute_inner_correlations`,
   lines 25-31)

   sub_vec = np.where(category_indices != category_index)[0]
   rand_map = np.random.choice(sub_vec)

   `np.random.choice` draws uniformly from `sub_vec`; any draw is therefore a
   member of `sub_vec`.  Randomness is modelled by quantifying over all draws
   taken from the pool. -/

/-- The pool `sub_vec`: all image indices whose category index differs from
that of the reference image `i`. -/
def subVec (n : ℕ) (cat : Fin n → ℕ) (i : Fin n) : Finset (Fin n) :=
  Finset.univ.filter (fun j => cat j ≠ cat i)

/-- C3: when at least 2 distinct categories are present, the selection pool for
image `i` is non-empty, every index in it has a category different from `i`'s,
and over any sequence of draws from the pool the fraction of same-category
draws is exactly 0. -/
theorem C3_null_sampling_different_category (n : ℕ) (cat : Fin n → ℕ) (i : Fin n)
    (htwo : ∃ a b : Fin n, cat a ≠ cat b) :
    (subVec n cat i).Nonempty ∧
    (∀ j ∈ subVec n cat i, cat j ≠ cat i) ∧
    (∀ draws : List (Fin n), (∀ d ∈ draws, d ∈ subVec n cat i) →
      ((draws.countP (fun j => cat j == cat i) : ℚ) / (draws.length : ℚ)) = 0) := by
  refine ⟨?_, ?_, ?_⟩
  · obtain ⟨a, b, hab⟩ := htwo
    by_cases hai : cat a = cat i
    · exact ⟨b, Finset.mem_filter.mpr
        ⟨Finset.mem_univ _, fun hbi => hab (hai.trans hbi.symm)⟩⟩
    · exact ⟨a, Finset.mem_filter.mpr ⟨Finset.mem_univ _, hai⟩⟩
  · intro j hj
    exact (Finset.mem_filter.mp hj).2
  · intro draws hdraws
    have hcount : draws.countP (fun j => cat j == cat i) = 0 := by
      rw [List.countP_eq_zero]
      intro d hd
      have hmem := (Finset.mem_filter.mp (hdraws d hd)).2
      simpa using hmem
    rw [hcount]
    simp

/-- C3 witness: two images with categories 0 and 1, reference image 0. -/
theorem C3_null_sampling_witness :
    (∃ a b : Fin 2, (![0, 1] : Fin 2 → ℕ) a ≠ ![0, 1] b) ∧
    (∀ j ∈ subVec 2 ![0, 1] 0, (![0, 1] : Fin 2 → ℕ) j ≠ ![0, 1] 0) :=
  ⟨⟨0, 1, by decide⟩,
    (C3_null_sampling_different_category 2 ![0, 1] 0 ⟨0, 1, by decide⟩).2.1⟩

/- ## Embedding of the THRESHOLD step (compute_human_ceiling.py, lines 327-336)

   mean_null_instance_correlations = np.asarray([np.mean(v) for v in ...])
   median_cutoff = np.median(mean_null_instance_correlations)
   ... if inst < median_cutoff: <retain image>

   `np.median` sorts and, with linear interpolation at the midpoint, returns
   the average of the elements at positions `(n-1)//2` and `n//2` of the
   sorted array (these coincide for odd `n`).  Per-image mean values are
   embedded as exact rationals; the retained set is modelled positionally. -/

/-- Sorted copy of the data, as produced inside `np.median`. -/
def npSorted (l : List ℚ) : List ℚ := List.insertionSort (· ≤ ·) l

/-- Value of `np.median` on a non-empty list (NumPy returns NaN on an empty
input; the claims only evaluate it on non-empty data). -/
def npMedianVal (l : List ℚ) : ℚ :=
  ((npSorted l).getD ((l.length - 1) / 2) 0 + (npSorted l).getD (l.length / 2) 0) / 2

/-- Indices of the images retained by the THRESHOLD loop: position `i` is kept
iff its mean null-instance correlation is strictly below the median cutoff. -/
def thresholdRetain (means : List ℚ) : List ℕ :=
  (List.range means.length).filter (fun i => decide (means.getD i 0 < npMedianVal means))

/-- C4: the THRESHOLD step retains exactly the images whose mean
null-instance correlation is strictly below the dataset median; on the
spec's scenario `[0.1, 0.5, 0.9, 0.3]` the cutoff is `0.4` and exactly the
images at positions 0 and 3 (values 0.1 and 0.3) are retained. -/
theorem C4_median_threshold (means : List ℚ) :
    (∀ i : ℕ, i ∈ thresholdRetain means ↔
      i < means.length ∧ means.getD i 0 < npMedianVal means) ∧
    npMedianVal [1/10, 1/2, 9/10, 3/10] = 2/5 ∧
    thresholdRetain [1/10, 1/2, 9/10, 3/10] = [0, 3] := by
  have hsort : npSorted [1/10, 1/2, 9/10, 3/10] = [1/10, 3/10, 1/2, 9/10] := by
    norm_num [npSorted, List.insertionSort, List.orderedInsert]
  have hmed : npMedianVal [1/10, 1/2, 9/10, 3/10] = 2/5 := by
    unfold npMedianVal
    rw [hsort]
    norm_num
  have hrange : List.range 4 = [0, 1, 2, 3] := rfl
  refine ⟨?_, hmed, ?_⟩
  · intro i
    simp [thresholdRetain, List.mem_filter, List.mem_range]
  · unfold thresholdRetain
    norm_num [hmed, hrange, List.filter_cons]

/-- C4 witness: the theorem applied to the spec's concrete scenario. -/
theorem C4_median_threshold_witness :
    thresholdRetain [1/10, 1/2, 9/10, 3/10] = [0, 3] :=
  (C4_median_threshold [1/10, 1/2, 9/10, 3/10]).2.2

/- ## NaN-aware model of the scoring engine
   (compute_human_ceiling.py, lines 70-88 and 105-178 and 243-278)

   Float data is embedded as exact rationals.  A NaN-contaminated array or a
   NaN scalar is modelled as `none`:
   - `numpy` mean of an empty selection is NaN (`meanMaps` of `[]`);
   - dividing a map by its zero sum produces NaN entries (`normalizeBySum`);
   - `scipy.stats.spearmanr` returns NaN for inputs of fewer than 2 entries
     (the `size > 1` guard in `compute_spearman_correlation`), for constant
     inputs (zero variance), and propagates NaN inputs. -/

/-- Average rank (1-based, ties averaged) as assigned by scipy rank data. -/
def rankOf (l : List ℚ) (x : ℚ) : ℚ :=
  (l.countP (fun y => decide (y < x)) : ℚ) +
    ((l.countP (fun y => decide (y = x)) : ℚ) + 1) / 2

/-- Ranks of a data vector. -/
def ranks (l : List ℚ) : List ℚ := l.map (rankOf l)

/-- Constancy of a data vector (scipy: zero variance, correlation undefined). -/
def constL (l : List ℚ) : Prop := ∀ x ∈ l, ∀ y ∈ l, x = y

instance constL.decidable (l : List ℚ) : Decidable (constL l) := by
  unfold constL
  infer_instance

/-- Pearson correlation coefficient of two equal-length real vectors. -/
noncomputable def pearsonR (a b : List ℚ) : ℝ :=
  let n : ℝ := a.length
  let ma : ℝ := ((a.sum : ℚ) : ℝ) / n
  let mb : ℝ := ((b.sum : ℚ) : ℝ) / n
  let cov : ℝ := ((a.zip b).map (fun p => ((p.1 : ℝ) - ma) * ((p.2 : ℝ) - mb))).sum
  let va : ℝ := (a.map (fun x => ((x : ℝ) - ma) ^ 2)).sum
  let vb : ℝ := (b.map (fun x => ((x : ℝ) - mb) ^ 2)).sum
  cov / (Real.sqrt va * Real.sqrt vb)

/-- `scipy.stats.spearmanr` behind the `size > 1` guard of
`compute_spearman_correlation`: NaN (`none`) for short or constant inputs,
otherwise the Pearson correlation of the rank vectors. -/
noncomputable def spearmanrOpt (a b : List ℚ) : Option ℝ :=
  if a.length ≤ 1 ∨ b.length ≤ 1 ∨ constL a ∨ constL b then none
  else some (pearsonR (ranks a) (ranks b))

/-- Sum of all entries of a rational grid. -/
def sumQ (H W : ℕ) (g : Fin H → Fin W → ℚ) : ℚ := ∑ r : Fin H, ∑ c : Fin W, g r c

/-- Row-major flattening of a grid (`.flatten()`). -/
def flattenQ (H W : ℕ) (g : Fin H → Fin W → ℚ) : List ℚ :=
  (List.finRange H).flatMap (fun r => (List.finRange W).map (fun c => g r c))

/-- Sum-normalization `m / m.sum()`; `none` models the NaN-filled array
obtained when the sum is zero (0/0). -/
def normalizeBySum (H W : ℕ) (g : Fin H → Fin W → ℚ) : Option (Fin H → Fin W → ℚ) :=
  if sumQ H W g = 0 then none else some (fun r c => g r c / sumQ H W g)

/-- Mean over a stack of maps (`.mean(0)`); `none` models the NaN array that
`numpy` produces as the mean of an empty selection. -/
def meanMaps (H W : ℕ) (l : List (Fin H → Fin W → ℚ)) : Option (Fin H → Fin W → ℚ) :=
  if l.length = 0 then none else
    some (fun r c => (l.map (fun m => m r c)).sum / (l.length : ℚ))

/-- One evaluation of `compute_spearman_correlation` on possibly
NaN-contaminated operands (scipy propagates NaN operands to a NaN result). -/
noncomputable def scoreSpearman (H W : ℕ) (a b : Option (Fin H → Fin W → ℚ)) :
    Option ℝ :=
  match a, b with
  | some x, some y => spearmanrOpt (flattenQ H W x) (flattenQ H W y)
  | _, _ => none

/-- NaN-aware mean `np.nanmean`: NaN entries are dropped; all-NaN gives NaN. -/
def npNanmean {α : Type} [DivisionRing α] (l : List (Option α)) : Option α :=
  if (l.filterMap id).length = 0 then none
  else some ((l.filterMap id).sum / ((l.filterMap id).length : α))

/-- Plain `np.mean` over a possibly NaN-contaminated vector: any NaN entry
(or an empty input) makes the result NaN. -/
def npMean {α : Type} [DivisionRing α] (l : List (Option α)) : Option α :=
  if l.length = 0 then none
  else if l.any (fun o => o.isNone) then none
  else some ((l.filterMap id).sum / (l.length : α))

/-- One null-score comparison of `main` (lines 255-272): both the reference
map and the test map are sum-normalized, then scored with Spearman. -/
noncomputable def nullPairScore (H W : ℕ) (testMap refMap : Fin H → Fin W → ℚ) :
    Option ℝ :=
  scoreSpearman H W (normalizeBySum H W testMap) (normalizeBySum H W refMap)

lemma scoreSpearman_none_right (H W : ℕ) (a : Option (Fin H → Fin W → ℚ)) :
    scoreSpearman H W a none = none := by
  cases a <;> rfl

lemma sumQ_zeroMap (H W : ℕ) : sumQ H W (fun _ _ => (0 : ℚ)) = 0 := by
  simp [sumQ]

/-- C6: comparing an all-zero map against any same-shape map (in either
role), the similarity computation returns NaN (`none`): the zero map cannot
be sum-normalized, and scipy propagates the resulting NaN operand.  In this
embedding the computation is a total function, so no exception is raised,
and the result is NaN rather than the number 0. -/
theorem C6_zero_map_similarity_nan (H W : ℕ) (m2 : Fin H → Fin W → ℚ) :
    nullPairScore H W (fun _ _ => 0) m2 = none ∧
    nullPairScore H W m2 (fun _ _ => 0) = none := by
  have hz : normalizeBySum H W (fun _ _ => (0 : ℚ)) = none := by
    simp [normalizeBySum, sumQ_zeroMap]
  constructor
  · unfold nullPairScore
    rw [hz]
    rfl
  · unfold nullPairScore
    rw [hz]
    exact scoreSpearman_none_right H W _

/- ## C7: NaN handling in the three aggregation sites

   - per-iteration dataset null mean (line 276): `np.nanmean(inner_correlations)`;
   - per-image agreement mean (line 178): `np.nanmean(correlations)`;
   - per-instance null means for the threshold (line 327):
     `[np.mean(v) for v in null_instance_correlations.values()]` - plain
     `np.mean`, not `np.nanmean`. -/

/-- The per-instance aggregation at line 327: plain `np.mean` per image. -/
def meanNullInstanceCorrs (insts : List (List (Option ℚ))) : List (Option ℚ) :=
  insts.map npMean

/-- C7 (counterexample): the per-instance means used for the median threshold
are computed with plain `np.mean`; a single NaN null score makes that image's
mean NaN, while NaN-aware averaging would have returned 1. -/
theorem C7_nan_aggregation_counterexample :
    meanNullInstanceCorrs [[some 1, none]] = [none] ∧
    npNanmean [some (1 : ℚ), none] = some 1 := by
  constructor
  · rfl
  · norm_num [npNanmean, List.filterMap]

/-- C7 (amended): the per-iteration dataset null mean and the per-image
agreement mean use `np.nanmean`, which ignores NaN entries (prepending a NaN
leaves the result unchanged); the per-instance null-correlation means used
for the median threshold use plain `np.mean`, where a single NaN entry makes
that aggregate NaN. -/
theorem C7_nan_aggregation_amended (l : List (Option ℚ)) :
    npNanmean (none :: l) = npNanmean l ∧ npMean (none :: l) = none := by
  constructor
  · simp [npNanmean]
  · simp [npMean]

/- ## Embedding of the single_subject branch of `split_half_correlation`
   (compute_human_ceiling.py, lines 147-178), scored with the `spearman`
   metric (the default of `main`): for each surviving subject map i,
   normalize it by its sum, average the remaining maps and normalize, then
   score the pair; finally `np.nanmean` the per-subject scores. -/

/-- Leave-one-out score of subject `i`. -/
noncomputable def looScore (H W : ℕ) (maps : List (Fin H → Fin W → ℚ)) (i : ℕ) :
    Option ℝ :=
  scoreSpearman H W
    (normalizeBySum H W (maps.getD i (fun _ _ => 0)))
    ((meanMaps H W (maps.eraseIdx i)).bind (normalizeBySum H W))

/-- The per-subject correlation list built by the single_subject loop. -/
noncomputable def singleSubjectCorrs (H W : ℕ)
    (maps : List (Fin H → Fin W → ℚ)) : List (Option ℝ) :=
  (List.range maps.length).map (looScore H W maps)

/-- The value returned at line 178: `np.nanmean(correlations)`. -/
noncomputable def singleSubjectResult (H W : ℕ)
    (maps : List (Fin H → Fin W → ℚ)) : Option ℝ :=
  npNanmean (singleSubjectCorrs H W maps)

/-- Constancy of a grid. -/
def constG (H W : ℕ) (g : Fin H → Fin W → ℚ) : Prop :=
  ∀ (r r' : Fin H) (c c' : Fin W), g r c = g r' c'

lemma mem_flattenQ (H W : ℕ) (g : Fin H → Fin W → ℚ) (x : ℚ) :
    x ∈ flattenQ H W g ↔ ∃ r c, g r c = x := by
  simp [flattenQ, List.mem_flatMap, List.mem_map, List.mem_finRange]

lemma constL_flattenQ_iff (H W : ℕ) (g : Fin H → Fin W → ℚ) :
    constL (flattenQ H W g) ↔ constG H W g := by
  constructor
  · intro h r r' c c'
    exact h _ ((mem_flattenQ H W g _).mpr ⟨r, c, rfl⟩)
      _ ((mem_flattenQ H W g _).mpr ⟨r', c', rfl⟩)
  · intro h x hx y hy
    obtain ⟨r, c, rfl⟩ := (mem_flattenQ H W g _).mp hx
    obtain ⟨r', c', rfl⟩ := (mem_flattenQ H W g _).mp hy
    exact h r r' c c'

lemma constL_of_length_le_one (l : List ℚ) (h : l.length ≤ 1) : constL l := by
  cases l with
  | nil => intro x hx; simp at hx
  | cons a t =>
    cases t with
    | nil =>
      intro x hx y hy
      simp at hx hy
      rw [hx, hy]
    | cons b t2 => simp at h

lemma spearmanrOpt_isSome (a b : List ℚ) (hca : ¬ constL a) (hcb : ¬ constL b) :
    (spearmanrOpt a b).isSome = true := by
  unfold spearmanrOpt
  rw [if_neg]
  · rfl
  · intro hor
    rcases hor with h | h | h | h
    · exact hca (constL_of_length_le_one a h)
    · exact hcb (constL_of_length_le_one b h)
    · exact hca h
    · exact hcb h

lemma constG_div (H W : ℕ) (g : Fin H → Fin W → ℚ) (s : ℚ) (hs : s ≠ 0)
    (h : constG H W (fun r c => g r c / s)) : constG H W g := by
  intro r r' c c'
  have h2 := h r r' c c'
  simp only at h2
  have h3 := (div_eq_div_iff hs hs).mp h2
  exact mul_right_cancel₀ hs h3

lemma not_constL_flatten_normalized (H W : ℕ) (g : Fin H → Fin W → ℚ) (s : ℚ)
    (hs : s ≠ 0) (hg : ¬ constG H W g) :
    ¬ constL (flattenQ H W (fun r c => g r c / s)) := by
  intro hcl
  exact hg (constG_div H W g s hs ((constL_flattenQ_iff H W _).mp hcl))

lemma map_eraseIdx_comm {α β : Type} (f : α → β) (l : List α) (i : ℕ) :
    (l.eraseIdx i).map f = (l.map f).eraseIdx i := by
  induction l generalizing i with
  | nil => simp
  | cons a t ih =>
    cases i with
    | zero => simp
    | succ n => simp [List.eraseIdx_cons_succ, ih]

lemma sum_eraseIdx_q (l : List ℚ) (i : ℕ) (h : i < l.length) :
    (l.eraseIdx i).sum = l.sum - l.getD i 0 := by
  induction l generalizing i with
  | nil => simp at h
  | cons a t ih =>
    cases i with
    | zero => simp
    | succ n =>
      simp only [List.eraseIdx_cons_succ, List.sum_cons, List.getD_cons_succ]
      rw [ih n (by simpa using h)]
      ring

lemma list_sum_all_eq (l : List ℚ) (x : ℚ) (h : ∀ y ∈ l, y = x) :
    l.sum = (l.length : ℚ) * x := by
  induction l with
  | nil => simp
  | cons a t ih =>
    simp only [List.sum_cons, List.length_cons]
    rw [h a (by simp), ih (fun y hy => h y (by simp [hy]))]
    push_cast
    ring

lemma list_sum_map_sub {α : Type} (l : List α) (f g : α → ℚ) :
    (l.map (fun x => f x - g x)).sum = (l.map f).sum - (l.map g).sum := by
  induction l with
  | nil => simp
  | cons a t ih =>
    simp only [List.map_cons, List.sum_cons]
    rw [ih]
    ring

lemma sumQ_listSum (H W : ℕ) (l : List (Fin H → Fin W → ℚ)) :
    (∑ r : Fin H, ∑ c : Fin W, (l.map (fun m => m r c)).sum)
      = (l.map (fun m => sumQ H W m)).sum := by
  induction l with
  | nil => simp
  | cons a t ih =>
    simp only [List.map_cons, List.sum_cons, Finset.sum_add_distrib]
    rw [ih]
    rfl

/-- If all subject maps are non-constant and there are at least two of them,
then for at least one index the pointwise sum of the remaining maps is a
non-constant grid.  (If every leave-one-out sum were constant, all maps would
differ from the total sum by constants, forcing each map to be constant.) -/
lemma exists_nonconst_loo_sum (H W : ℕ) (maps : List (Fin H → Fin W → ℚ))
    (hlen : 2 ≤ maps.length)
    (hnc : ∀ m ∈ maps, ¬ constG H W m) :
    ∃ i, i < maps.length ∧
      ¬ constG H W (fun r c => ((maps.eraseIdx i).map (fun m => m r c)).sum) := by
  by_contra hcon
  push_neg at hcon
  have h0 : 0 < maps.length := by omega
  have hm0mem : maps.getD 0 (fun _ _ => 0) ∈ maps := by
    rw [List.getD_eq_getElem maps _ h0]
    exact List.getElem_mem h0
  have hm0nc := hnc _ hm0mem
  unfold constG at hm0nc
  push_neg at hm0nc
  obtain ⟨ra, rb, ca, cb, hne⟩ := hm0nc
  -- the scalar difference functional at the two witnessing pixels
  set δ : (Fin H → Fin W → ℚ) → ℚ := fun g => g ra ca - g rb cb with hδ
  set S : ℚ := (maps.map δ).sum with hS
  -- each leave-one-out constancy forces δ of that member to equal S
  have hmember : ∀ i, i < maps.length → δ (maps.getD i (fun _ _ => 0)) = S := by
    intro i hi
    have hc := hcon i hi ra rb ca cb
    simp only at hc
    have e1 : ((maps.eraseIdx i).map (fun m => m ra ca)).sum
        = (maps.map (fun m => m ra ca)).sum - (maps.getD i (fun _ _ => 0)) ra ca := by
      rw [map_eraseIdx_comm, sum_eraseIdx_q _ i (by simpa using hi)]
      congr 1
      rw [List.getD_eq_getElem _ _ (by simpa using hi), List.getElem_map,
        List.getD_eq_getElem maps _ hi]
    have e2 : ((maps.eraseIdx i).map (fun m => m rb cb)).sum
        = (maps.map (fun m => m rb cb)).sum - (maps.getD i (fun _ _ => 0)) rb cb := by
      rw [map_eraseIdx_comm, sum_eraseIdx_q _ i (by simpa using hi)]
      congr 1
      rw [List.getD_eq_getElem _ _ (by simpa using hi), List.getElem_map,
        List.getD_eq_getElem maps _ hi]
    have hsplit : S = (maps.map (fun m => m ra ca)).sum - (maps.map (fun m => m rb cb)).sum := by
      rw [hS, hδ]
      exact list_sum_map_sub maps _ _
    rw [e1, e2] at hc
    rw [hδ, hsplit]
    simp only
    linarith
  -- hence every element of `maps.map δ` equals S, so S = |maps| * S
  have hall : ∀ y ∈ maps.map δ, y = S := by
    intro y hy
    obtain ⟨m, hm, rfl⟩ := List.mem_map.mp hy
    obtain ⟨idx, hidx⟩ := List.mem_iff_get.mp hm
    have : maps.getD (idx : ℕ) (fun _ _ => 0) = m := by
      rw [List.getD_eq_getElem maps _ idx.isLt]
      rw [← hidx]
      rfl
    rw [← this]
    exact hmember _ idx.isLt
  have hSS : S = (maps.length : ℚ) * S := by
    conv_lhs => rw [hS, list_sum_all_eq (maps.map δ) S hall]
    rw [List.length_map]
  have hS0 : S = 0 := by
    have hn : (1 : ℚ) < (maps.length : ℚ) := by exact_mod_cast hlen
    nlinarith [hSS]
  have : δ (maps.getD 0 (fun _ _ => 0)) = 0 := by rw [hmember 0 h0, hS0]
  rw [hδ] at this
  simp only at this
  exact hne (by linarith)

/-- C5: with a single surviving subject map, the leave-one-out agreement of
`split_half_correlation` (single_subject) is NaN, because the mean of the
zero remaining maps is a NaN array; with at least two surviving maps that
all have positive sum and are non-constant, the returned aggregate is a
finite (non-NaN) score. -/
theorem C5_single_subject_nan_and_finite (H W : ℕ)
    (maps : List (Fin H → Fin W → ℚ)) :
    (maps.length = 1 → singleSubjectResult H W maps = none) ∧
    (2 ≤ maps.length →
      (∀ m ∈ maps, 0 < sumQ H W m) →
      (∀ m ∈ maps, ¬ constL (flattenQ H W m)) →
      (singleSubjectResult H W maps).isSome = true) := by
  constructor
  · intro h1
    obtain ⟨m, rfl⟩ : ∃ m, maps = [m] := by
      cases maps with
      | nil => simp at h1
      | cons a t =>
        cases t with
        | nil => exact ⟨a, rfl⟩
        | cons b t2 => simp at h1
    have hloo : looScore H W [m] 0 = none := by
      unfold looScore
      have herase : ([m].eraseIdx 0 : List (Fin H → Fin W → ℚ)) = [] :=
        List.eraseIdx_cons_zero
      rw [herase]
      have hmean : meanMaps H W ([] : List (Fin H → Fin W → ℚ)) = none := by
        unfold meanMaps
        simp
      rw [hmean]
      exact scoreSpearman_none_right H W _
    unfold singleSubjectResult singleSubjectCorrs
    simp [hloo, npNanmean]
  · intro hlen hpos hncL
    have hnc : ∀ m ∈ maps, ¬ constG H W m := fun m hm hg =>
      hncL m hm ((constL_flattenQ_iff H W m).mpr hg)
    obtain ⟨i, hi, hTnc⟩ := exists_nonconst_loo_sum H W maps hlen hnc
    have hElen : (maps.eraseIdx i).length = maps.length - 1 := by
      rw [List.length_eraseIdx]
      simp [hi]
    have hEne : (maps.eraseIdx i).length ≠ 0 := by omega
    have hmean : meanMaps H W (maps.eraseIdx i)
        = some (fun r c => ((maps.eraseIdx i).map (fun m => m r c)).sum /
            ((maps.eraseIdx i).length : ℚ)) := by
      unfold meanMaps
      rw [if_neg hEne]
    have hpos' : 0 < ((maps.eraseIdx i).map (fun m => sumQ H W m)).sum := by
      apply List.sum_pos
      · intro x hx
        obtain ⟨m, hm, rfl⟩ := List.mem_map.mp hx
        exact hpos m (List.eraseIdx_subset maps i hm)
      · intro hnil
        have := congrArg List.length hnil
        simp at this
        exact hEne (by simp [this])
    have hsums : sumQ H W (fun r c => ((maps.eraseIdx i).map (fun m => m r c)).sum /
        ((maps.eraseIdx i).length : ℚ))
        = ((maps.eraseIdx i).map (fun m => sumQ H W m)).sum /
            ((maps.eraseIdx i).length : ℚ) := by
      unfold sumQ
      simp only [← Finset.sum_div]
      rw [sumQ_listSum H W (maps.eraseIdx i)]
      rfl
    have hLpos : (0 : ℚ) < ((maps.eraseIdx i).length : ℚ) := by
      exact_mod_cast Nat.pos_of_ne_zero hEne
    have hmsum : 0 < sumQ H W (fun r c => ((maps.eraseIdx i).map (fun m => m r c)).sum /
        ((maps.eraseIdx i).length : ℚ)) := by
      rw [hsums]
      exact div_pos hpos' hLpos
    have htestmem : maps.getD i (fun _ _ => 0) ∈ maps := by
      rw [List.getD_eq_getElem maps _ hi]
      exact List.getElem_mem hi
    have htestsum : 0 < sumQ H W (maps.getD i (fun _ _ => 0)) := hpos _ htestmem
    have htestnorm : normalizeBySum H W (maps.getD i (fun _ _ => 0))
        = some (fun r c => (maps.getD i (fun _ _ => 0)) r c /
            sumQ H W (maps.getD i (fun _ _ => 0))) := by
      unfold normalizeBySum
      rw [if_neg htestsum.ne']
    have htestnc : ¬ constG H W (maps.getD i (fun _ _ => 0)) := hnc _ htestmem
    have hncTest : ¬ constL (flattenQ H W (fun r c => (maps.getD i (fun _ _ => 0)) r c /
        sumQ H W (maps.getD i (fun _ _ => 0)))) :=
      not_constL_flatten_normalized H W _ _ htestsum.ne' htestnc
    have hncMeanG : ¬ constG H W (fun r c =>
        ((maps.eraseIdx i).map (fun m => m r c)).sum / ((maps.eraseIdx i).length : ℚ)) := by
      intro hcg
      exact hTnc (constG_div H W _ ((maps.eraseIdx i).length : ℚ) hLpos.ne' hcg)
    have hmnorm : normalizeBySum H W (fun r c =>
        ((maps.eraseIdx i).map (fun m => m r c)).sum / ((maps.eraseIdx i).length : ℚ))
        = some (fun r c =>
            (((maps.eraseIdx i).map (fun m => m r c)).sum / ((maps.eraseIdx i).length : ℚ)) /
              sumQ H W (fun r c => ((maps.eraseIdx i).map (fun m => m r c)).sum /
                ((maps.eraseIdx i).length : ℚ))) := by
      unfold normalizeBySum
      rw [if_neg hmsum.ne']
    have hncMean : ¬ constL (flattenQ H W (fun r c =>
        (((maps.eraseIdx i).map (fun m => m r c)).sum / ((maps.eraseIdx i).length : ℚ)) /
          sumQ H W (fun r c => ((maps.eraseIdx i).map (fun m => m r c)).sum /
            ((maps.eraseIdx i).length : ℚ)))) :=
      not_constL_flatten_normalized H W _ _ hmsum.ne' hncMeanG
    have hloo : (looScore H W maps i).isSome = true := by
      unfold looScore
      rw [htestnorm, hmean]
      rw [Option.some_bind]
      rw [hmnorm]
      show (spearmanrOpt _ _).isSome = true
      exact spearmanrOpt_isSome _ _ hncTest hncMean
    have hmem : looScore H W maps i ∈ singleSubjectCorrs H W maps := by
      unfold singleSubjectCorrs
      exact List.mem_map.mpr ⟨i, List.mem_range.mpr hi, rfl⟩
    obtain ⟨v, hv⟩ := Option.isSome_iff_exists.mp hloo
    have hvmem : v ∈ (singleSubjectCorrs H W maps).filterMap id :=
      List.mem_filterMap.mpr ⟨looScore H W maps i, hmem, by rw [hv]; rfl⟩
    unfold singleSubjectResult npNanmean
    rw [if_neg]
    · rfl
    · intro hzero
      rw [List.length_eq_zero] at hzero
      rw [hzero] at hvmem
      simp at hvmem

/-- C5 witness: part 1 applied to one concrete map, and the hypotheses of
part 2 checked at two concrete non-constant positive maps on a 1x2 grid. -/
theorem C5_single_subject_witness :
    (singleSubjectResult 1 2 [fun _ c => if c = 0 then 1 else 2] = none) ∧
    (singleSubjectResult 1 2 [(fun _ c => if c = 0 then 1 else 2),
      (fun _ c => if c = 0 then 2 else 1)]).isSome = true := by
  have hs1 : sumQ 1 2 (fun _ c => if c = 0 then (1 : ℚ) else 2) = 3 := by
    simp [sumQ, Fin.sum_univ_succ]
    norm_num
  have hs2 : sumQ 1 2 (fun _ c => if c = 0 then (2 : ℚ) else 1) = 3 := by
    simp [sumQ, Fin.sum_univ_succ]
    norm_num
  have hnc1 : ¬ constL (flattenQ 1 2 (fun _ c => if c = 0 then (1 : ℚ) else 2)) := by
    intro hc
    have h1 : (1 : ℚ) ∈ flattenQ 1 2 (fun _ c => if c = 0 then (1 : ℚ) else 2) :=
      (mem_flattenQ 1 2 _ _).mpr ⟨0, 0, by norm_num⟩
    have h2 : (2 : ℚ) ∈ flattenQ 1 2 (fun _ c => if c = 0 then (1 : ℚ) else 2) :=
      (mem_flattenQ 1 2 _ _).mpr ⟨0, 1, by norm_num⟩
    exact absurd (hc 1 h1 2 h2) (by norm_num)
  have hnc2 : ¬ constL (flattenQ 1 2 (fun _ c => if c = 0 then (2 : ℚ) else 1)) := by
    intro hc
    have h1 : (2 : ℚ) ∈ flattenQ 1 2 (fun _ c => if c = 0 then (2 : ℚ) else 1) :=
      (mem_flattenQ 1 2 _ _).mpr ⟨0, 0, by norm_num⟩
    have h2 : (1 : ℚ) ∈ flattenQ 1 2 (fun _ c => if c = 0 then (2 : ℚ) else 1) :=
      (mem_flattenQ 1 2 _ _).mpr ⟨0, 1, by norm_num⟩
    exact absurd (hc 2 h1 1 h2) (by norm_num)
  constructor
  · exact (C5_single_subject_nan_and_finite 1 2 _).1 rfl
  · refine (C5_single_subject_nan_and_finite 1 2 _).2 (by norm_num) ?_ ?_
    · intro m hm
      rcases List.mem_cons.mp hm with rfl | hm2
      · rw [hs1]; norm_num
      · rcases List.mem_cons.mp hm2 with rfl | hm3
        · rw [hs2]; norm_num
        · simp at hm3
    · intro m hm
      rcases List.mem_cons.mp hm with rfl | hm2
      · exact hnc1
      · rcases List.mem_cons.mp hm2 with rfl | hm3
        · exact hnc2
        · simp at hm3

/- ## Embedding of the metric dispatch

   compute_human_ceiling.py `split_half_correlation` (lines 155-158) and
   `main` (lines 269-272):
       if metric == "crossentropy": compute_crossentropy(...)
       else: compute_spearman_correlation(...)
   compute_human_ceiling_hold_one_out.py `compute_inner_correlations`
   (lines 34-43):
       if metric.lower() == "crossentropy": ... elif "auc" ... elif "rsa" ...
       elif "spearman" ... else: raise ValueError(f"Invalid metric: {metric}")

   The value each branch would compute is passed as a parameter (the metric
   functions live in the external `utils` module or in this file);
   `Except.error` models an uncaught `ValueError`. -/

/-- Metric selection of `split_half_correlation` and `main`: a plain
if/else with no error branch. -/
def splitHalfSelect {α : Type} (metric : String) (ce sp : α) : Except String α :=
  if metric = "crossentropy" then Except.ok ce else Except.ok sp

/-- Python `str.lower()` for ASCII strings. -/
def pyLower (s : String) : String := String.mk (s.data.map Char.toLower)

/-- Metric selection of `compute_inner_correlations` (hold-one-out). -/
def holdOneOutSelect {α : Type} (metric : String) (ce auc rsa sp : α) :
    Except String α :=
  if pyLower metric = "crossentropy" then Except.ok ce
  else if pyLower metric = "auc" then Except.ok auc
  else if pyLower metric = "rsa" then Except.ok rsa
  else if pyLower metric = "spearman" then Except.ok sp
  else Except.error ("Invalid metric: " ++ metric)

/-- C8 (counterexample): in `split_half_correlation`/`main` the unrecognized
metric "foo" does not raise any error: dispatch silently falls back to the
Spearman branch and succeeds with its value. -/
theorem C8_invalid_metric_counterexample :
    splitHalfSelect "foo" (0 : ℚ) 1 = Except.ok 1 := by
  rfl

/-- C8 (amended): in `compute_inner_correlations` of the hold-one-out script,
a metric whose lowercase form is none of crossentropy/auc/rsa/spearman raises
`ValueError` at call time; but in `split_half_correlation` and `main` of
compute_human_ceiling.py every metric other than "crossentropy" is silently
scored with Spearman - there is no error path. -/
theorem C8_invalid_metric_amended {α : Type} (metric : String) (ce auc rsa sp : α) :
    (pyLower metric ∉ ["crossentropy", "auc", "rsa", "spearman"] →
      holdOneOutSelect metric ce auc rsa sp
        = Except.error ("Invalid metric: " ++ metric)) ∧
    (metric ≠ "crossentropy" → splitHalfSelect metric ce sp = Except.ok sp) := by
  constructor
  · intro h
    simp only [List.mem_cons, List.not_mem_nil, or_false, not_or] at h
    obtain ⟨h1, h2, h3, h4⟩ := h
    unfold holdOneOutSelect
    rw [if_neg h1, if_neg h2, if_neg h3, if_neg h4]
  · intro h
    unfold splitHalfSelect
    rw [if_neg h]

/-- C8 witness: the amended theorem applied at the concrete metric "foo". -/
theorem C8_invalid_metric_witness :
    (pyLower "foo" ∉ ["crossentropy", "auc", "rsa", "spearman"] ∧
      "foo" ≠ "crossentropy") ∧
    holdOneOutSelect "foo" (0 : ℚ) 1 2 3 = Except.error ("Invalid metric: " ++ "foo") ∧
    splitHalfSelect "foo" (0 : ℚ) 3 = Except.ok 3 :=
  ⟨⟨by decide, by decide⟩,
    (C8_invalid_metric_amended "foo" (0 : ℚ) 1 2 3).1 (by decide),
    (C8_invalid_metric_amended "foo" (0 : ℚ) 1 2 3).2 (by decide)⟩

/- ## Embedding of the click-string parsing loop
   (compute_human_ceiling.py `__main__`, lines 305-321)

       if len(clickmap) == 2:
           n_empty_clickmap += 1
           continue
       clean_string = re.sub(r'[{}"]', '', clickmap)
       tuple_strings = clean_string.split(', ')
       data_list = tuple_strings[0].strip("()").split("),(")
       tuples_list = [tuple(map(int, pair.split(','))) for pair in data_list]

   There is no try/except around `int(...)`: a non-numeric token raises an
   uncaught ValueError, modelled as `ParseOutcome.error`.  Length-2 strings
   (the "empty" placeholder) are skipped and counted, modelled as
   `ParseOutcome.empty`.  String splitting is implemented on character lists
   with an explicit fuel argument that is always sufficient because every
   step consumes at least one character. -/

/-- Outcome of processing one raw click string in the `__main__` loop. -/
inductive ParseOutcome where
  | empty : ParseOutcome
  | ok : List (List ℤ) → ParseOutcome
  | error : String → ParseOutcome
deriving DecidableEq

/-- Worker for Python `str.split(sep)` over character lists. -/
def splitGo (sep : List Char) : ℕ → List Char → List Char → List (List Char)
  | _, [], acc => [acc.reverse]
  | 0, l, acc => [acc.reverse ++ l]
  | fuel + 1, ch :: rest, acc =>
    if sep.isPrefixOf (ch :: rest) then
      acc.reverse :: splitGo sep fuel (List.drop sep.length (ch :: rest)) []
    else
      splitGo sep fuel rest (ch :: acc)

/-- Python `str.split(sep)` for a non-empty separator. -/
def splitOnChars (sep : List Char) (l : List Char) : List (List Char) :=
  splitGo sep l.length l []

/-- Python `str.strip(chars)`: drop the given characters from both ends. -/
def stripEnds (p : Char → Bool) (l : List Char) : List Char :=
  ((l.dropWhile p).reverse.dropWhile p).reverse

/-- Value of one decimal digit. -/
def digitVal (ch : Char) : Option ℕ :=
  if ch.isDigit then some (ch.toNat - 48) else none

def digitsValGo : Option ℕ → List Char → Option ℕ
  | acc, [] => acc
  | none, _ => none
  | some a, ch :: rest =>
    match digitVal ch with
    | some d => digitsValGo (some (10 * a + d)) rest
    | none => none

/-- Value of a non-empty all-digit string. -/
def digitsVal (l : List Char) : Option ℕ :=
  if l.isEmpty then none else digitsValGo (some 0) l

/-- Python `int(token)` on a decimal literal with optional surrounding
whitespace and an optional sign; `none` models a raised `ValueError`. -/
def pyInt (l : List Char) : Option ℤ :=
  match stripEnds (fun ch => ch.isWhitespace) l with
  | '-' :: rest => (digitsVal rest).map (fun n => -(n : ℤ))
  | '+' :: rest => (digitsVal rest).map (fun n => (n : ℤ))
  | t => (digitsVal t).map (fun n => (n : ℤ))

/-- The parsing step applied to one raw click string. -/
def parseClick (s : String) : ParseOutcome :=
  if s.length = 2 then ParseOutcome.empty
  else
    let clean := s.data.filter (fun ch => !(ch == '\x7b' || ch == '\x7d' || ch == '\"'))
    let first := (splitOnChars [',', ' '] clean).headD []
    let dataList := splitOnChars [')', ',', '(']
      (stripEnds (fun ch => ch == '(' || ch == ')') first)
    let parsed := dataList.map (fun pr => (splitOnChars [','] pr).map pyInt)
    if parsed.all (fun t => t.all (fun o => o.isSome)) then
      ParseOutcome.ok (parsed.map (fun t => t.map (fun o => o.getD 0)))
    else ParseOutcome.error "invalid literal for int() with base 10"

/-- C9 (counterexample): the click string "\x7b(1,a)\x7d" is not the length-2
empty placeholder, and its non-numeric token `a` makes `int(...)` raise an
uncaught ValueError: the parsing step neither yields integer pairs nor drops
the trial as empty. -/
theorem C9_parse_counterexample :
    parseClick "\x7b(1,a)\x7d"
      = ParseOutcome.error "invalid literal for int() with base 10" := by
  rfl

/-- C9 (amended): the parsing step treats exactly the length-2 strings as the
empty placeholder (dropped and counted); a well-formed string parses to the
ordered integer tuples; but a non-numeric token in any other string raises an
uncaught ValueError instead of being skipped. -/
theorem C9_parse_amended :
    (∀ s : String, s.length = 2 → parseClick s = ParseOutcome.empty) ∧
    parseClick "\x7b(10,10),(20,20)\x7d" = ParseOutcome.ok [[10, 10], [20, 20]] ∧
    parseClick "\x7b(3,x)\x7d"
      = ParseOutcome.error "invalid literal for int() with base 10" := by
  refine ⟨?_, by rfl, by rfl⟩
  intro s h
  unfold parseClick
  rw [if_pos h]

/-- C9 witness: the amended theorem applied to the actual empty placeholder,
a two-character string. -/
theorem C9_parse_witness :
    ("\x7b\x7d".length = 2) ∧ parseClick "\x7b\x7d" = ParseOutcome.empty :=
  ⟨rfl, C9_parse_amended.1 "\x7b\x7d" rfl⟩

/- ## Embedding of the zero-map filter of `split_half_correlation`
   (compute_human_ceiling.py, lines 133-145 and 176-178)

       clickmaps = np.asarray([create_clickmap([trials], image_shape) ...])
       clickmaps = gaussian_blur(clickmaps, blur_kernel)
       if center_crop is not None: clickmaps = tvF.center_crop(...)
       zero_maps = clickmaps.sum((1, 2)) == 0
       clickmaps = clickmaps[~zero_maps]
       num_trials = len(clickmaps)
       ...
       return np.nanmean(correlations), clickmaps -/

/-- Modelled from the spec: `utils.create_clickmap` is not in this
repository's sources; spec section 4.2 (HeatmapBuilder `build_density`)
specifies scatter-accumulated occurrence counts of each (x, y) click into a
zero grid of the image shape, with out-of-bounds points dropped.  Point
(x, y) is counted at column x, row y. -/
def create_clickmap (trials : List (List (ℕ × ℕ))) (H W : ℕ) :
    Fin H → Fin W → ℕ :=
  fun r c => (trials.flatMap id).countP
    (fun p => p.1 == (c : ℕ) && p.2 == (r : ℕ))

/-- The density grid as a real array (torch `.float()`). -/
noncomputable def clickmapReal (trials : List (List (ℕ × ℕ))) (H W : ℕ) :
    Fin H → Fin W → ℝ :=
  fun r c => (create_clickmap trials H W r c : ℝ)

/-- torchvision center crop to `ch x cw` (top-left offsets `(H-ch)/2` and
`(W-cw)/2`, for crops no larger than the image, as used here). -/
noncomputable def centerCrop (H W ch cw : ℕ) (hh : ch ≤ H) (hw : cw ≤ W)
    (g : Fin H → Fin W → ℝ) : Fin ch → Fin cw → ℝ :=
  fun r c => g ⟨(H - ch) / 2 + (r : ℕ), by omega⟩ ⟨(W - cw) / 2 + (c : ℕ), by omega⟩

/-- The per-trial smoothed and cropped maps built by `split_half_correlation`
before the zero filter. -/
noncomputable def rawMaps (trials : List (List (ℕ × ℕ))) (H W size : ℕ)
    (σ : ℝ) (ch cw : ℕ) (hh : ch ≤ H) (hw : cw ≤ W) :
    List (Fin ch → Fin cw → ℝ) :=
  trials.map (fun t =>
    centerCrop H W ch cw hh hw
      (conv2dSame (clickmapReal [t] H W) (gaussianKernel size σ)))

open Classical in
/-- The zero-map filter `clickmaps[~(clickmaps.sum((1,2)) == 0)]`: the stack
of surviving per-subject maps, also the source of `num_trials` and the
`clickmaps` value returned at line 178. -/
noncomputable def survivingMaps (trials : List (List (ℕ × ℕ))) (H W size : ℕ)
    (σ : ℝ) (ch cw : ℕ) (hh : ch ≤ H) (hw : cw ≤ W) :
    List (Fin ch → Fin cw → ℝ) :=
  (rawMaps trials H W size σ ch cw hh hw).filter
    (fun m => decide (totalMass m ≠ 0))

lemma gaussianKernel_pos (size : ℕ) (σ : ℝ) (hsize : 1 ≤ size) (hσ : 0 < σ)
    (i j : Fin size) : 0 < gaussianKernel size σ i j :=
  div_pos (gaussianKernelRaw_pos size σ hσ i j) (kernelNorm_pos size σ hsize hσ)

lemma getPix_nonneg {H W : ℕ} (g : Fin H → Fin W → ℝ)
    (hg : ∀ r c, 0 ≤ g r c) (a b : ℤ) : 0 ≤ getPix g a b := by
  unfold getPix
  split
  · exact hg _ _
  · exact le_refl 0

lemma conv2dSame_nonneg {H W k : ℕ} (g : Fin H → Fin W → ℝ)
    (ker : Fin k → Fin k → ℝ) (hg : ∀ r c, 0 ≤ g r c)
    (hker : ∀ i j, 0 ≤ ker i j) (r : Fin H) (c : Fin W) :
    0 ≤ conv2dSame g ker r c := by
  unfold conv2dSame
  refine Finset.sum_nonneg (fun i _ => Finset.sum_nonneg (fun j _ => ?_))
  exact mul_nonneg (hker i j) (getPix_nonneg g hg _ _)

/-- C10: `split_half_correlation` keeps exactly the smoothed per-subject maps
with non-zero total sum; since the density grids are non-negative counts and
the Gaussian kernel is strictly positive, every surviving map (hence the
whole returned stack, whose length is the subject count N) has strictly
positive total sum, for every input trial list. -/
theorem C10_surviving_maps_positive (trials : List (List (ℕ × ℕ)))
    (H W size : ℕ) (σ : ℝ) (ch cw : ℕ) (hh : ch ≤ H) (hw : cw ≤ W)
    (hsize : 1 ≤ size) (hσ : 0 < σ) :
    survivingMaps trials H W size σ ch cw hh hw
      = (rawMaps trials H W size σ ch cw hh hw).filter
          (fun m => decide (totalMass m ≠ 0)) ∧
    (∀ m ∈ survivingMaps trials H W size σ ch cw hh hw, 0 < totalMass m) := by
  constructor
  · rfl
  · intro m hm
    rw [survivingMaps, List.mem_filter] at hm
    obtain ⟨hmem, hdec⟩ := hm
    have hne : totalMass m ≠ 0 := of_decide_eq_true hdec
    obtain ⟨t, _, rfl⟩ := List.mem_map.mp hmem
    have hnn : ∀ (r : Fin ch) (c : Fin cw),
        0 ≤ centerCrop H W ch cw hh hw
          (conv2dSame (clickmapReal [t] H W) (gaussianKernel size σ)) r c := by
      intro r c
      unfold centerCrop
      exact conv2dSame_nonneg _ _
        (fun r' c' => by unfold clickmapReal; positivity)
        (fun i j => (gaussianKernel_pos size σ hsize hσ i j).le) _ _
    have hmass : 0 ≤ totalMass (centerCrop H W ch cw hh hw
        (conv2dSame (clickmapReal [t] H W) (gaussianKernel size σ))) := by
      unfold totalMass
      exact Finset.sum_nonneg (fun r _ => Finset.sum_nonneg (fun c _ => hnn r c))
    exact lt_of_le_of_ne hmass (Ne.symm hne)

/-- C10 witness: the theorem applied to one concrete one-click trial on a
1x1 grid with a size-1 kernel and a trivial crop. -/
theorem C10_surviving_maps_witness :
    ((1 : ℕ) ≤ 1 ∧ (1 : ℕ) ≤ 1 ∧ (0 : ℝ) < 1) ∧
    (∀ m ∈ survivingMaps [[(0, 0)]] 1 1 1 1 1 1 (le_refl 1) (le_refl 1),
      0 < totalMass m) :=
  ⟨⟨le_refl 1, le_refl 1, by norm_num⟩,
    (C10_surviving_maps_positive [[(0, 0)]] 1 1 1 1 1 1 (le_refl 1) (le_refl 1)
      (le_refl 1) (by norm_num)).2⟩
